import Mathlib

/-!
Verification of the SBS mapping engine (`sbs_ai_mapping_system.py`).

Shallow embedding conventions:
* Python text is modelled as `List Char`; a missing/null value (`None` / `NaN`,
  detected in the source via `pd.isna`) is modelled by `Option`.
* Python floats are modelled by `ℚ` (all scores are built from exact
  rational literals and rational arithmetic).
* DataFrames are modelled as lists of records; `iterrows` order is list order.
-/

namespace SBS

/-- Python whitespace (the ASCII part of the `\s` regex class and of
`str.strip` / `str.split`). -/
def pyIsSpace (c : Char) : Bool :=
  c == ' ' || c == '\t' || c == '\n' || c == '\r' || c == '\x0b' || c == '\x0c'

/-- ASCII lower-casing, the effect of `str.lower()` on the characters that can
survive the later `[^a-z0-9\s]` filter. -/
def lowerChar (c : Char) : Char :=
  if 'A' ≤ c ∧ c ≤ 'Z' then Char.ofNat (c.toNat + 32) else c

/-- `c` is a lowercase ASCII letter or a digit. -/
def isLowerAlnum (c : Char) : Bool :=
  ('a' ≤ c && c ≤ 'z') || ('0' ≤ c && c ≤ '9')

/-- One character step of `re.sub(r'[^a-z0-9\s]', ' ', text)`: a character that
is not a lowercase letter, digit or whitespace becomes a single space. -/
def keepOrSpace (c : Char) : Char :=
  if isLowerAlnum c || pyIsSpace c then c else ' '

/-- `re.sub(r'\s+', ' ', text)`: every maximal run of whitespace becomes one
space.  The flag records whether we are inside a whitespace run. -/
def squeezeWs : Bool → List Char → List Char
  | _, [] => []
  | inRun, c :: cs =>
    if pyIsSpace c then
      if inRun then squeezeWs true cs else ' ' :: squeezeWs true cs
    else c :: squeezeWs false cs

/-- Remove a maximal trailing whitespace run (the right half of `str.strip`). -/
def rstripWs : List Char → List Char
  | [] => []
  | c :: cs =>
    match rstripWs cs with
    | [] => if pyIsSpace c then [] else [c]
    | l => c :: l

/-- `str.strip()`: drop leading and trailing whitespace. -/
def strip (l : List Char) : List Char :=
  rstripWs (l.dropWhile pyIsSpace)

/-- `TextNormalizer.normalize`: `None`/`NaN` becomes the empty string; then
lower-case, replace every non-`[a-z0-9\s]` character by a space, collapse
whitespace runs to one space, and strip.  Total by construction. -/
def normalize (t : Option (List Char)) : List Char :=
  match t with
  | none => []
  | some text => strip (squeezeWs false ((text.map lowerChar).map keepOrSpace))

/-- The stop-word set of `TextNormalizer.extract_keywords`. -/
def stop_words : List (List Char) :=
  ["the", "and", "or", "of", "in", "for", "with", "without",
   "per", "each", "including", "excluding", "code", "service"].map String.toList

/-- `text.split()` on a normalized string (whose only whitespace is `' '`):
split on spaces and drop empty pieces. -/
def wordsOf (l : List Char) : List (List Char) :=
  (l.splitOn ' ').filter (fun w => w ≠ [])

/-- `TextNormalizer.extract_keywords`: normalize, split into words, keep the
words that are not stop words and are longer than 2 characters. -/
def extract_keywords (t : Option (List Char)) : List (List Char) :=
  (wordsOf (normalize t)).filter (fun w => decide (w ∉ stop_words) && decide (2 < w.length))

/-- Checker for the C8 shape property: the string never contains two adjacent
spaces. -/
def noDoubleSpace : List Char → Bool
  | [] => true
  | [_] => true
  | a :: b :: rest => !(a == ' ' && b == ' ') && noDoubleSpace (b :: rest)

/- ### Levenshtein distance (`SimilarityCalculator.levenshtein_distance`) -/

/-- Inner loop of the row dynamic program: walk the (remaining) second string
together with the previous row, threading the last value appended to the
current row.  `min (min (previous_row[j+1] + 1) (current_row[j] + 1))
(previous_row[j] + (c1 != c2))` mirrors
`min(insertions, deletions, substitutions)` of the source. -/
def levRow (c1 : Char) : List Char → List Nat → Nat → List Nat
  | b :: bs, p0 :: p1 :: ps, last =>
    let v := min (min (p1 + 1) (last + 1)) (p0 + (if c1 = b then 0 else 1))
    v :: levRow c1 bs (p1 :: ps) v
  | _, _, _ => []

/-- Outer loop of the dynamic program: one full row per character of the first
string; each new row starts with `i + 1`. -/
def levRows (s2 : List Char) : List Char → List Nat → Nat → List Nat
  | [], prev, _ => prev
  | c1 :: cs, prev, i => levRows s2 cs ((i + 1) :: levRow c1 s2 prev (i + 1)) (i + 1)

/-- The row dynamic program of `levenshtein_distance` after the initial
length-swap: early return when the second string is empty, otherwise run the
rows starting from `range(len(s2) + 1)` and take the last entry. -/
def levCore (s1 s2 : List Char) : Nat :=
  if s2.length = 0 then s1.length
  else (levRows s2 s1 (List.range (s2.length + 1)) 0).getLastD 0

/-- `SimilarityCalculator.levenshtein_distance`: the source first swaps the
arguments when the first is shorter (a single self-call, unrolled here), then
runs the row dynamic program. -/
def levenshtein_distance (s1 s2 : List Char) : Nat :=
  if s1.length < s2.length then levCore s2 s1 else levCore s1 s2

/-- Reference recurrence for the edit distance, used to reason about the
dynamic program. -/
def levRec : List Char → List Char → Nat
  | [], t => t.length
  | s, [] => s.length
  | a :: s, b :: t =>
    min (min (levRec s (b :: t) + 1) (levRec (a :: s) t + 1))
      (levRec s t + (if a = b then 0 else 1))
termination_by s t => s.length + t.length

/-- Row of reference values: distances from `u` to longer and longer reversed
prefixes, starting at `preR` and extending through `bs`. -/
def rowOf (u : List Char) : List Char → List Char → List Nat
  | preR, [] => [levRec u preR]
  | preR, b :: bs => levRec u preR :: rowOf u (b :: preR) bs

/- ### Similarity scores -/

/-- `SimilarityCalculator.jaccard_similarity`: Jaccard coefficient of the two
(deduplicated) keyword sets; `0.0` when either set is empty. -/
def jaccard_similarity (t1 t2 : Option (List Char)) : ℚ :=
  let set1 := (extract_keywords t1).toFinset
  let set2 := (extract_keywords t2).toFinset
  if set1 = ∅ ∨ set2 = ∅ then 0
  else
    let inter := (set1 ∩ set2).card
    let union := (set1 ∪ set2).card
    if 0 < union then (inter : ℚ) / union else 0

/-- `SimilarityCalculator.normalized_levenshtein`: `1 - distance / max_len`
over the normalized texts; `0.0` when either normalized text is empty. -/
def normalized_levenshtein (t1 t2 : Option (List Char)) : ℚ :=
  let n1 := normalize t1
  let n2 := normalize t2
  if n1 = [] ∨ n2 = [] then 0
  else
    let d := levenshtein_distance n1 n2
    let m := max n1.length n2.length
    if 0 < m then 1 - (d : ℚ) / m else 0

/-- `SimilarityCalculator.weighted_similarity` (default weights are
`jaccard_weight = 0.4`, `levenshtein_weight = 0.6` at every call site). -/
def weighted_similarity (t1 t2 : Option (List Char))
    (jaccard_weight levenshtein_weight : ℚ) : ℚ :=
  jaccard_weight * jaccard_similarity t1 t2 +
    levenshtein_weight * normalized_levenshtein t1 t2

/-- `SimilarityCalculator.code_similarity`: `0.0` when either code is missing
(`pd.isna`); `1.0` on equality after trimming; `0.9` when one trimmed code is a
substring of the other (note the Python substring test, so an empty trimmed
code is a substring of everything); otherwise the number of positions below
the shorter length with equal characters (the truncating `zip`), divided by
the longer length. -/
def code_similarity (code1 code2 : Option (List Char)) : ℚ :=
  match code1, code2 with
  | none, _ => 0
  | _, none => 0
  | some a, some b =>
    let c1 := strip a
    let c2 := strip b
    if c1 = c2 then 1
    else if c1 <:+: c2 ∨ c2 <:+: c1 then 0.9
    else
      let matching_chars := (c1.zip c2).countP (fun p => p.1 == p.2)
      (matching_chars : ℚ) / (max c1.length c2.length)

/- ### The mapping engine (`SBSMappingEngine`) -/

/-- A row of the loaded price list after column renaming: a code value, a
description text (possibly null), an optional price value, and the remaining
columns in order.  `V` is the type of opaque cell values. -/
structure TargetRow (V : Type) where
  pricelist_code : V
  pricelist_description : Option (List Char)
  price : Option V
  extras : List (List Char × V)

/-- A match record produced by `find_best_match`: the row index, the score,
the description and code of the candidate, and all its other columns. -/
structure MatchRec (V : Type) where
  index : Nat
  similarity_score : ℚ
  description : Option (List Char)
  code : V
  price : Option V
  extras : List (List Char × V)

/-- Build the match dictionary for one surviving candidate row. -/
def mkMatch {V : Type} (i : Nat) (s : ℚ) (row : TargetRow V) : MatchRec V :=
  ⟨i, s, row.pricelist_description, row.pricelist_code, row.price, row.extras⟩

/-- The filtering loop of `find_best_match`: score every row against the
query with the default weights and keep the rows scoring at least
`min_threshold`, in iteration order, tagged with their row index. -/
def buildMatches {V : Type} (source_description : Option (List Char)) (min_threshold : ℚ) :
    Nat → List (TargetRow V) → List (MatchRec V)
  | _, [] => []
  | i, row :: rest =>
    let similarity := weighted_similarity source_description row.pricelist_description 0.4 0.6
    if min_threshold ≤ similarity then
      mkMatch i similarity row :: buildMatches source_description min_threshold (i + 1) rest
    else buildMatches source_description min_threshold (i + 1) rest

/-- `matches.sort(key=..., reverse=True)`: Python's list sort is stable, and
with `reverse=True` it orders by score descending while keeping tied elements
in their original order.  A stable insertion sort with the relation
"left stays before right when its score is at least the right's" has exactly
these semantics. -/
def sortMatches {V : Type} (l : List (MatchRec V)) : List (MatchRec V) :=
  List.insertionSort (fun a b => b.similarity_score ≤ a.similarity_score) l

/-- `SBSMappingEngine.find_best_match` (specialized, as at its only call site,
to the renamed price-list columns): filter by threshold, sort by score
descending (stable), return the first `top_n`. -/
def find_best_match {V : Type} (source_description : Option (List Char))
    (target : List (TargetRow V)) (top_n : Nat) (min_threshold : ℚ) : List (MatchRec V) :=
  (sortMatches (buildMatches source_description min_threshold 0 target)).take top_n

/-- Specification-side search, following the spec's words: score every
candidate, discard those strictly below the threshold, order by score
descending with ties broken by original collection order (smaller index
first), and truncate to `top_n`. -/
def searchSpec {V : Type} (source_description : Option (List Char))
    (target : List (TargetRow V)) (top_n : Nat) (min_threshold : ℚ) : List (MatchRec V) :=
  (List.insertionSort
    (fun a b => b.similarity_score < a.similarity_score ∨
      (a.similarity_score = b.similarity_score ∧ a.index ≤ b.index))
    (((target.enum).map (fun p =>
        mkMatch p.1 (weighted_similarity source_description p.2.pricelist_description 0.4 0.6) p.2)).filter
      (fun m => decide (min_threshold ≤ m.similarity_score)))).take top_n

/- ### Mapping a source table to the price list -/

/-- The `MatchConfidence` enumeration. -/
inductive MatchConfidence where
  | EXACT
  | HIGH
  | MEDIUM
  | LOW
  | VERY_LOW
  | NO_MATCH
deriving DecidableEq

/-- The confidence classification of `map_to_price_list` (lines 307-316 of the
source): the first threshold that the best score reaches, tested in descending
order. -/
def classifyConfidence (score : ℚ) : MatchConfidence :=
  if 0.95 ≤ score then MatchConfidence.EXACT
  else if 0.9 ≤ score then MatchConfidence.HIGH
  else if 0.7 ≤ score then MatchConfidence.MEDIUM
  else if 0.5 ≤ score then MatchConfidence.LOW
  else MatchConfidence.VERY_LOW

/-- A row of the source table handed to `map_to_price_list`: its code value,
its description text, and the remaining columns in order. -/
structure SourceRow (V : Type) where
  sbs_code : V
  sbs_description : Option (List Char)
  extras : List (List Char × V)

/-- One result record of `map_to_price_list` (the dictionary built per source
row).  `matched_pricelist_code` and `matched_pricelist_description` are `none`
exactly in the NO_MATCH branch. -/
structure MappingResult (V : Type) where
  sbs_code : V
  sbs_description : Option (List Char)
  matched_pricelist_code : Option V
  matched_pricelist_description : Option (Option (List Char))
  similarity_score : ℚ
  confidence : MatchConfidence
  price : Option (Option V)
  alternative_matches : Nat
  second_best_score : Option ℚ
  original_fields : List (List Char × V)

/-- The per-row body of the `map_to_price_list` loop.  Note that the source
copies the extra source columns (under the `original_` prefix) only in the
branch where at least one match was found. -/
def mapRow {V : Type} (price_list : List (TargetRow V)) (min_threshold : ℚ)
    (row : SourceRow V) : MappingResult V :=
  match find_best_match row.sbs_description price_list 5 min_threshold with
  | best :: rest =>
    { sbs_code := row.sbs_code
      sbs_description := row.sbs_description
      matched_pricelist_code := some best.code
      matched_pricelist_description := some best.description
      similarity_score := best.similarity_score
      confidence := classifyConfidence best.similarity_score
      price := some best.price
      alternative_matches := rest.length
      second_best_score := rest.head?.map (fun m => m.similarity_score)
      original_fields := row.extras.map (fun p => (("original_".toList) ++ p.1, p.2)) }
  | [] =>
    { sbs_code := row.sbs_code
      sbs_description := row.sbs_description
      matched_pricelist_code := none
      matched_pricelist_description := none
      similarity_score := 0
      confidence := MatchConfidence.NO_MATCH
      price := none
      alternative_matches := 0
      second_best_score := none
      original_fields := [] }

/-- `SBSMappingEngine.map_to_price_list`: raises a `ValueError` before
touching any source row when no price list has been loaded; otherwise maps
every source row independently, in order. -/
def map_to_price_list {V : Type} (price_list : Option (List (TargetRow V)))
    (min_threshold : ℚ) (sbs_rows : List (SourceRow V)) :
    Except String (List (MappingResult V)) :=
  match price_list with
  | none => Except.error "Price list not loaded. Call load_price_list() first."
  | some pl => Except.ok (sbs_rows.map (mapRow pl min_threshold))

/- ### `MappingValidator.flag_ambiguous_matches` -/

/-- A mapping result together with the two boolean columns added by
`flag_ambiguous_matches`. -/
structure FlaggedResult (V : Type) where
  result : MappingResult V
  is_ambiguous : Bool
  requires_review : Bool

/-- The per-row body of `flag_ambiguous_matches`: a row is ambiguous when a
runner-up score exists and the gap to the best score is below the threshold;
it requires review when it is ambiguous or its confidence is LOW or
VERY_LOW. -/
def flagRow {V : Type} (score_difference_threshold : ℚ) (r : MappingResult V) :
    FlaggedResult V :=
  let amb : Bool :=
    match r.second_best_score with
    | none => false
    | some s => decide (r.similarity_score - s < score_difference_threshold)
  { result := r
    is_ambiguous := amb
    requires_review := amb || decide (r.confidence = MatchConfidence.LOW) ||
      decide (r.confidence = MatchConfidence.VERY_LOW) }

/-- `MappingValidator.flag_ambiguous_matches` (default threshold 0.05). -/
def flag_ambiguous_matches {V : Type} (score_difference_threshold : ℚ)
    (mapping_rows : List (MappingResult V)) : List (FlaggedResult V) :=
  mapping_rows.map (flagRow score_difference_threshold)

/- ### Concrete data for witnesses and counterexamples -/

/-- A price-list row whose description is `"xyz"`. -/
def wRow0 : TargetRow Unit := ⟨(), some "xyz".toList, none, []⟩

/-- A second price-list row with the same description, giving a tied
runner-up. -/
def wRow1 : TargetRow Unit := ⟨(), some "xyz".toList, none, []⟩

/-- A two-row price list. -/
def wPl : List (TargetRow Unit) := [wRow0, wRow1]

/-- A source row with description `"xyz"` and one extra column. -/
def wSrc : SourceRow Unit := ⟨(), some "xyz".toList, [("qty".toList, ())]⟩

/-- A source row with one extra column, matched against an empty price
list. -/
def cSrc : SourceRow Unit := ⟨(), some "chest".toList, [("note".toList, ())]⟩

/-- A mapping result with best score 0.80 and runner-up score 0.78. -/
def r9 : MappingResult Unit :=
  ⟨(), none, none, none, 0.8, MatchConfidence.MEDIUM, none, 1, some 0.78, []⟩

/- ### Theorems -/

/- ### Shape lemmas for `normalize` -/

theorem mem_squeezeWs {c : Char} : ∀ {b : Bool} {l : List Char},
    c ∈ squeezeWs b l → c = ' ' ∨ (c ∈ l ∧ pyIsSpace c = false) := by
  intro b l
  induction l generalizing b with
  | nil => intro h; simp [squeezeWs] at h
  | cons x xs ih =>
    intro h
    simp only [squeezeWs] at h
    by_cases hx : pyIsSpace x
    · rw [if_pos hx] at h
      cases hb : b with
      | true =>
        rw [hb] at h
        rcases ih h with h1 | h2
        · exact Or.inl h1
        · exact Or.inr ⟨List.mem_cons_of_mem _ h2.1, h2.2⟩
      | false =>
        rw [hb] at h
        rcases List.mem_cons.mp h with h1 | h1
        · exact Or.inl h1
        · rcases ih h1 with h2 | h3
          · exact Or.inl h2
          · exact Or.inr ⟨List.mem_cons_of_mem _ h3.1, h3.2⟩
    · rw [if_neg hx] at h
      rcases List.mem_cons.mp h with h1 | h1
      · subst h1
        exact Or.inr ⟨List.mem_cons_self _ _, by simpa using hx⟩
      · rcases ih h1 with h2 | h3
        · exact Or.inl h2
        · exact Or.inr ⟨List.mem_cons_of_mem _ h3.1, h3.2⟩

theorem squeezeWs_true_head {l : List Char} {c : Char}
    (h : (squeezeWs true l).head? = some c) : pyIsSpace c = false := by
  induction l with
  | nil => simp [squeezeWs] at h
  | cons x xs ih =>
    simp only [squeezeWs] at h
    by_cases hx : pyIsSpace x
    · rw [if_pos hx] at h; exact ih h
    · rw [if_neg hx] at h
      simp only [List.head?_cons, Option.some.injEq] at h
      subst h; simpa using hx

theorem noDoubleSpace_cons {a : Char} {l : List Char}
    (hhd : ∀ b, l.head? = some b → ¬(a = ' ' ∧ b = ' '))
    (hl : noDoubleSpace l = true) : noDoubleSpace (a :: l) = true := by
  cases l with
  | nil => rfl
  | cons b t =>
    have hb := hhd b rfl
    simp only [noDoubleSpace, Bool.and_eq_true, Bool.not_eq_true']
    refine ⟨?_, hl⟩
    by_cases hab : a = ' ' ∧ b = ' '
    · exact absurd hab hb
    · simp only [Bool.and_eq_false_iff]
      rcases not_and_or.mp hab with h | h
      · exact Or.inl (by simpa using h)
      · exact Or.inr (by simpa using h)

theorem noDoubleSpace_squeezeWs : ∀ (b : Bool) (l : List Char),
    noDoubleSpace (squeezeWs b l) = true := by
  intro b l
  induction l generalizing b with
  | nil => rfl
  | cons x xs ih =>
    simp only [squeezeWs]
    by_cases hx : pyIsSpace x
    · rw [if_pos hx]
      cases b with
      | true => exact ih true
      | false =>
        rw [if_neg Bool.false_ne_true]
        refine noDoubleSpace_cons ?_ (ih true)
        intro b hb hab
        have := squeezeWs_true_head hb
        rw [hab.2] at this
        simp [pyIsSpace] at this
    · rw [if_neg hx]
      refine noDoubleSpace_cons ?_ (ih false)
      intro b hb hab
      rw [hab.1] at hx
      simp [pyIsSpace] at hx

theorem noDoubleSpace_tail {a : Char} {l : List Char}
    (h : noDoubleSpace (a :: l) = true) : noDoubleSpace l = true := by
  cases l with
  | nil => rfl
  | cons b t =>
    simp only [noDoubleSpace, Bool.and_eq_true] at h
    exact h.2

theorem noDoubleSpace_append_left : ∀ {xs ys : List Char},
    noDoubleSpace (xs ++ ys) = true → noDoubleSpace xs = true := by
  intro xs
  induction xs with
  | nil => intro ys _; rfl
  | cons a t ih =>
    intro ys h
    cases t with
    | nil => rfl
    | cons b t2 =>
      simp only [List.cons_append, noDoubleSpace, Bool.and_eq_true] at h ⊢
      exact ⟨h.1, ih (by simpa using h.2)⟩

theorem noDoubleSpace_suffix {l' l : List Char} (hs : l' <:+ l)
    (h : noDoubleSpace l = true) : noDoubleSpace l' = true := by
  obtain ⟨t, rfl⟩ := hs
  induction t with
  | nil => simpa using h
  | cons a t ih => exact ih (noDoubleSpace_tail (by simpa using h))

theorem noDoubleSpace_pre {l' l : List Char} (hs : l' <+: l)
    (h : noDoubleSpace l = true) : noDoubleSpace l' = true := by
  obtain ⟨t, rfl⟩ := hs
  exact noDoubleSpace_append_left h

theorem rstripWs_pre : ∀ (l : List Char), rstripWs l <+: l := by
  intro l
  induction l with
  | nil => exact List.nil_prefix
  | cons c cs ih =>
    simp only [rstripWs]
    cases h : rstripWs cs with
    | nil =>
      by_cases hc : pyIsSpace c
      · rw [if_pos hc]; exact List.nil_prefix
      · rw [if_neg hc]; exact ⟨cs, rfl⟩
    | cons x xs =>
      rw [h] at ih
      obtain ⟨t, ht⟩ := ih
      exact ⟨t, by simp [← ht]⟩

theorem rstripWs_getLast? {l : List Char} {c : Char}
    (h : (rstripWs l).getLast? = some c) : pyIsSpace c = false := by
  induction l with
  | nil => simp [rstripWs] at h
  | cons x xs ih =>
    simp only [rstripWs] at h
    cases hx : rstripWs xs with
    | nil =>
      rw [hx] at h
      by_cases hxs : pyIsSpace x
      · rw [if_pos hxs] at h; simp at h
      · rw [if_neg hxs] at h
        simp only [List.getLast?_singleton, Option.some.injEq] at h
        subst h; simpa using hxs
    | cons y ys =>
      rw [hx] at h
      rw [List.getLast?_cons_cons] at h
      rw [← hx] at h
      exact ih h

theorem head?_dropWhile_false {p : Char → Bool} : ∀ {l : List Char} {c : Char},
    (l.dropWhile p).head? = some c → p c = false := by
  intro l
  induction l with
  | nil => intro c h; simp [List.dropWhile] at h
  | cons x xs ih =>
    intro c h
    simp only [List.dropWhile] at h
    by_cases hx : p x
    · rw [hx] at h; simp only [cond_true] at h; exact ih h
    · rw [Bool.not_eq_true] at hx
      rw [hx] at h
      simp only [cond_false, List.head?_cons, Option.some.injEq] at h
      subst h; exact hx

theorem head?_of_pre {l' l : List Char} (hs : l' <+: l) {c : Char}
    (h : l'.head? = some c) : l.head? = some c := by
  obtain ⟨t, rfl⟩ := hs
  cases l' with
  | nil => simp at h
  | cons a b => simpa using h

/-- C8 core: every character of a normalized string is a lowercase letter, a
digit, or a space; there are no two adjacent spaces; and the string neither
starts nor ends with a space. -/
theorem normalize_shape (t : Option (List Char)) :
    (∀ c ∈ normalize t, isLowerAlnum c = true ∨ c = ' ') ∧
    noDoubleSpace (normalize t) = true ∧
    (normalize t).head? ≠ some ' ' ∧
    (normalize t).getLast? ≠ some ' ' := by
  cases t with
  | none =>
    refine ⟨by intro c hc; simp [normalize] at hc, rfl, by simp [normalize], by simp [normalize]⟩
  | some text =>
    simp only [normalize]
    set m : List Char := (text.map lowerChar).map keepOrSpace with hm
    refine ⟨?_, ?_, ?_, ?_⟩
    · intro c hc
      have hc1 : c ∈ squeezeWs false m := by
        have h1 : List.Sublist (strip (squeezeWs false m)) (squeezeWs false m) :=
          (rstripWs_pre _).sublist.trans (List.dropWhile_suffix pyIsSpace).sublist
        exact h1.subset hc
      rcases mem_squeezeWs hc1 with h | ⟨hmem, hns⟩
      · exact Or.inr h
      · rw [hm] at hmem
        rcases List.mem_map.mp hmem with ⟨c0, _, hc0⟩
        simp only [keepOrSpace] at hc0
        by_cases hk : isLowerAlnum c0 || pyIsSpace c0
        · rw [if_pos hk] at hc0
          subst hc0
          rw [Bool.or_eq_true] at hk
          rcases hk with h1 | h1
          · exact Or.inl h1
          · rw [h1] at hns; exact absurd hns (by simp)
        · rw [if_neg hk] at hc0
          exact Or.inr hc0.symm
    · have h0 := noDoubleSpace_squeezeWs false m
      have h1 := noDoubleSpace_suffix (List.dropWhile_suffix pyIsSpace) h0
      exact noDoubleSpace_pre (rstripWs_pre _) h1
    · intro h
      have h1 := head?_of_pre (rstripWs_pre _) h
      have h2 := head?_dropWhile_false h1
      simp [pyIsSpace] at h2
    · intro h
      have := rstripWs_getLast? h
      simp [pyIsSpace] at this

theorem levRec_nil_right : ∀ s : List Char, levRec s [] = s.length := by
  intro s; cases s <;> simp [levRec]

theorem levRec_symm : ∀ s t : List Char, levRec s t = levRec t s := by
  intro s
  induction s with
  | nil => intro t; cases t <;> simp [levRec]
  | cons a s ih =>
    intro t
    induction t with
    | nil => simp [levRec]
    | cons b t iht =>
      simp only [levRec]
      rw [ih (b :: t), iht, ih t]
      by_cases hab : a = b
      · rw [if_pos hab, if_pos hab.symm]; omega
      · rw [if_neg hab, if_neg (fun h => hab h.symm)]; omega

theorem levRec_self : ∀ s : List Char, levRec s s = 0 := by
  intro s
  induction s with
  | nil => simp [levRec]
  | cons a s ih =>
    simp [levRec, ih]

theorem levRec_le_max : ∀ s t : List Char, levRec s t ≤ max s.length t.length := by
  intro s
  induction s with
  | nil => intro t; cases t <;> simp [levRec]
  | cons a s ih =>
    intro t
    induction t with
    | nil => simp [levRec]
    | cons b t iht =>
      have h3 := ih t
      simp only [levRec, List.length_cons]
      by_cases hab : a = b
      · rw [if_pos hab]; omega
      · rw [if_neg hab]; omega

theorem rowOf_consD (u preR : List Char) : ∀ bs : List Char,
    rowOf u preR bs = levRec u preR :: (rowOf u preR bs).tail := by
  intro bs; cases bs <;> simp [rowOf]

theorem levRec_cons_nil (c : Char) (u : List Char) :
    levRec (c :: u) [] = u.length + 1 := by
  simp [levRec]

theorem levRow_rowOf (c1 : Char) (u : List Char) : ∀ (bs preR : List Char),
    levRow c1 bs (rowOf u preR bs) (levRec (c1 :: u) preR) =
      (rowOf (c1 :: u) preR bs).tail := by
  intro bs
  induction bs with
  | nil => intro preR; simp [rowOf, levRow]
  | cons b bs ih =>
    intro preR
    rw [rowOf, rowOf_consD u (b :: preR) bs, levRow]
    rw [← rowOf_consD u (b :: preR) bs]
    have hv : min (min (levRec u (b :: preR) + 1) (levRec (c1 :: u) preR + 1))
        (levRec u preR + (if c1 = b then 0 else 1)) = levRec (c1 :: u) (b :: preR) := by
      simp only [levRec]
    rw [hv, ih (b :: preR), rowOf]
    exact (rowOf_consD (c1 :: u) (b :: preR) bs).symm

theorem levRows_rowOf (s2 : List Char) : ∀ (cs uR : List Char),
    levRows s2 cs (rowOf uR [] s2) uR.length = rowOf (cs.reverse ++ uR) [] s2 := by
  intro cs
  induction cs with
  | nil => intro uR; simp [levRows]
  | cons c1 cs ih =>
    intro uR
    have hstep : (uR.length + 1) :: levRow c1 s2 (rowOf uR [] s2) (uR.length + 1) =
        rowOf (c1 :: uR) [] s2 := by
      have h1 := levRow_rowOf c1 uR s2 []
      rw [levRec_cons_nil c1 uR] at h1
      conv_rhs => rw [rowOf_consD (c1 :: uR) [] s2, levRec_cons_nil]
      rw [h1]
    rw [levRows, hstep]
    have h2 := ih (c1 :: uR)
    simp only [List.length_cons] at h2
    rw [h2]
    simp

theorem rowOf_nil_left : ∀ (bs preR : List Char),
    rowOf [] preR bs = List.range' preR.length (bs.length + 1) := by
  intro bs
  induction bs with
  | nil => intro preR; simp [rowOf, levRec, List.range'_one]
  | cons b bs ih =>
    intro preR
    rw [rowOf, ih (b :: preR)]
    conv_rhs => rw [List.range'_succ]
    simp [levRec]

theorem rowOf_getLastD (u : List Char) : ∀ (bs preR : List Char) (d : Nat),
    (rowOf u preR bs).getLastD d = levRec u (bs.reverse ++ preR) := by
  intro bs
  induction bs with
  | nil => intro preR d; simp [rowOf]
  | cons b bs ih =>
    intro preR d
    rw [rowOf, List.getLastD_cons, ih (b :: preR)]
    simp

theorem levCore_eq (s1 s2 : List Char) :
    levCore s1 s2 = levRec s1.reverse s2.reverse := by
  unfold levCore
  by_cases h2 : s2.length = 0
  · rw [if_pos h2]
    rw [List.length_eq_zero] at h2
    subst h2
    simp [levRec_nil_right]
  · rw [if_neg h2]
    have hinit : List.range (s2.length + 1) = rowOf [] [] s2 := by
      rw [rowOf_nil_left s2 [], List.range_eq_range']
      rfl
    rw [hinit]
    have h := levRows_rowOf s2 s1 []
    simp only [List.length_nil, List.append_nil] at h
    rw [h, rowOf_getLastD]
    simp

/-- The source's `levenshtein_distance` computes the reference edit distance of
the two (reversed) inputs; reversal is irrelevant to every property we use. -/
theorem levenshtein_distance_eq (s1 s2 : List Char) :
    levenshtein_distance s1 s2 = levRec s1.reverse s2.reverse := by
  unfold levenshtein_distance
  by_cases h : s1.length < s2.length
  · rw [if_pos h, levCore_eq, levRec_symm]
  · rw [if_neg h, levCore_eq]

theorem levenshtein_distance_self (s : List Char) : levenshtein_distance s s = 0 := by
  rw [levenshtein_distance_eq, levRec_self]

theorem levenshtein_distance_symm (s t : List Char) :
    levenshtein_distance s t = levenshtein_distance t s := by
  rw [levenshtein_distance_eq, levenshtein_distance_eq, levRec_symm]

theorem levenshtein_distance_le_max (s t : List Char) :
    levenshtein_distance s t ≤ max s.length t.length := by
  rw [levenshtein_distance_eq]
  have := levRec_le_max s.reverse t.reverse
  simpa using this

theorem jaccard_similarity_nonneg (t1 t2 : Option (List Char)) :
    0 ≤ jaccard_similarity t1 t2 := by
  simp only [jaccard_similarity]
  split_ifs <;> positivity

theorem jaccard_similarity_le_one (t1 t2 : Option (List Char)) :
    jaccard_similarity t1 t2 ≤ 1 := by
  simp only [jaccard_similarity]
  split_ifs with h1 h2
  · norm_num
  · rw [div_le_one (by exact_mod_cast h2)]
    exact_mod_cast Finset.card_le_card Finset.inter_subset_union
  · norm_num

theorem jaccard_similarity_symm (t1 t2 : Option (List Char)) :
    jaccard_similarity t1 t2 = jaccard_similarity t2 t1 := by
  simp only [jaccard_similarity]
  by_cases h : (extract_keywords t1).toFinset = ∅ ∨ (extract_keywords t2).toFinset = ∅
  · rw [if_pos h, if_pos h.symm]
  · rw [if_neg h]
    conv_rhs => rw [if_neg (fun hc => h (Or.symm hc))]
    conv_rhs => rw [Finset.inter_comm, Finset.union_comm]

theorem jaccard_similarity_self {t : Option (List Char)}
    (hk : extract_keywords t ≠ []) : jaccard_similarity t t = 1 := by
  simp only [jaccard_similarity, Finset.inter_self, Finset.union_self]
  have hne : (extract_keywords t).toFinset ≠ ∅ := by
    simpa [← List.toFinset_eq_empty_iff] using hk
  rw [if_neg (by simp [hne])]
  have hcard : 0 < (extract_keywords t).toFinset.card :=
    Finset.card_pos.mpr (Finset.nonempty_iff_ne_empty.mpr hne)
  rw [if_pos hcard, div_self]
  exact ne_of_gt (by exact_mod_cast hcard)

theorem normalized_levenshtein_nonneg (t1 t2 : Option (List Char)) :
    0 ≤ normalized_levenshtein t1 t2 := by
  simp only [normalized_levenshtein]
  split_ifs with h1 h2
  · norm_num
  · have hd : levenshtein_distance (normalize t1) (normalize t2) ≤
        max (normalize t1).length (normalize t2).length :=
      levenshtein_distance_le_max _ _
    have hm : (0 : ℚ) <
        ((max (normalize t1).length (normalize t2).length : ℕ) : ℚ) := by
      exact_mod_cast h2
    have hq : ((levenshtein_distance (normalize t1) (normalize t2) : ℕ) : ℚ) /
        ((max (normalize t1).length (normalize t2).length : ℕ) : ℚ) ≤ 1 := by
      rw [div_le_one hm]
      exact_mod_cast hd
    linarith
  · norm_num

theorem normalized_levenshtein_le_one (t1 t2 : Option (List Char)) :
    normalized_levenshtein t1 t2 ≤ 1 := by
  simp only [normalized_levenshtein]
  split_ifs with h1 h2
  · norm_num
  · have hq : (0 : ℚ) ≤ ((levenshtein_distance (normalize t1) (normalize t2) : ℕ) : ℚ) /
        ((max (normalize t1).length (normalize t2).length : ℕ) : ℚ) := by positivity
    linarith
  · norm_num

theorem normalized_levenshtein_symm (t1 t2 : Option (List Char)) :
    normalized_levenshtein t1 t2 = normalized_levenshtein t2 t1 := by
  simp only [normalized_levenshtein]
  by_cases h : normalize t1 = [] ∨ normalize t2 = []
  · rw [if_pos h, if_pos h.symm]
  · rw [if_neg h]
    conv_rhs => rw [if_neg (fun hc => h (Or.symm hc))]
    conv_rhs => rw [levenshtein_distance_symm, Nat.max_comm]

theorem normalized_levenshtein_self {t : Option (List Char)}
    (hn : normalize t ≠ []) : normalized_levenshtein t t = 1 := by
  simp only [normalized_levenshtein]
  rw [if_neg (by simp [hn])]
  have hm : 0 < max (normalize t).length (normalize t).length := by
    simp [List.length_pos.mpr hn]
  rw [if_pos hm, levenshtein_distance_self]
  simp

/-- If a text has at least one extracted keyword, its normalized form is
nonempty. -/
theorem normalize_ne_nil_of_keywords {t : Option (List Char)}
    (hk : extract_keywords t ≠ []) : normalize t ≠ [] := by
  intro hn
  apply hk
  simp [extract_keywords, wordsOf, hn, List.splitOn]

/-- Shared helper: reflexivity of the weighted score for any weights summing
to 1, provided at least one keyword is extracted. -/
theorem weighted_similarity_self {t : Option (List Char)} {jw lw : ℚ}
    (hw : jw + lw = 1) (hk : extract_keywords t ≠ []) :
    weighted_similarity t t jw lw = 1 := by
  unfold weighted_similarity
  rw [jaccard_similarity_self hk,
    normalized_levenshtein_self (normalize_ne_nil_of_keywords hk)]
  linarith

/- ### Stability: sorting by score only agrees with the lexicographic sort
when the input indices are strictly increasing -/

theorem buildMatches_eq_filter {V : Type} (d : Option (List Char)) (thr : ℚ) :
    ∀ (l : List (TargetRow V)) (i : Nat),
      buildMatches d thr i l =
        ((List.enumFrom i l).map (fun p =>
            mkMatch p.1 (weighted_similarity d p.2.pricelist_description 0.4 0.6) p.2)).filter
          (fun m => decide (thr ≤ m.similarity_score)) := by
  intro l
  induction l with
  | nil => intro i; rfl
  | cons row rest ih =>
    intro i
    simp only [buildMatches, List.enumFrom, List.map_cons, List.filter_cons]
    by_cases h : thr ≤ weighted_similarity d row.pricelist_description 0.4 0.6
    · rw [if_pos h, ih (i + 1)]
      simp [mkMatch, h]
    · rw [if_neg h, ih (i + 1)]
      simp [mkMatch, h]

theorem buildMatches_index_ge {V : Type} (d : Option (List Char)) (thr : ℚ) :
    ∀ (l : List (TargetRow V)) (i : Nat) (m : MatchRec V),
      m ∈ buildMatches d thr i l → i ≤ m.index := by
  intro l
  induction l with
  | nil => intro i m h; simp [buildMatches] at h
  | cons row rest ih =>
    intro i m h
    simp only [buildMatches] at h
    by_cases hs : thr ≤ weighted_similarity d row.pricelist_description 0.4 0.6
    · rw [if_pos hs] at h
      rcases List.mem_cons.mp h with h1 | h1
      · subst h1; exact le_refl _
      · exact le_of_lt (Nat.lt_of_lt_of_le (Nat.lt_succ_self i) (ih (i + 1) m h1))
    · rw [if_neg hs] at h
      exact le_of_lt (Nat.lt_of_lt_of_le (Nat.lt_succ_self i) (ih (i + 1) m h))

theorem buildMatches_index_lt {V : Type} (d : Option (List Char)) (thr : ℚ) :
    ∀ (l : List (TargetRow V)) (i : Nat),
      (buildMatches d thr i l).Pairwise (fun a b => a.index < b.index) := by
  intro l
  induction l with
  | nil => intro i; simp [buildMatches]
  | cons row rest ih =>
    intro i
    simp only [buildMatches]
    by_cases hs : thr ≤ weighted_similarity d row.pricelist_description 0.4 0.6
    · rw [if_pos hs]
      refine List.Pairwise.cons ?_ (ih (i + 1))
      intro m hm
      exact Nat.lt_of_lt_of_le (Nat.lt_succ_self i) (buildMatches_index_ge d thr rest (i + 1) m hm)
    · rw [if_neg hs]
      exact ih (i + 1)

theorem orderedInsert_score_lex {V : Type} (a : MatchRec V) :
    ∀ (l : List (MatchRec V)), (∀ x ∈ l, a.index < x.index) →
      List.orderedInsert (fun a b => b.similarity_score ≤ a.similarity_score) a l =
        List.orderedInsert (fun a b => b.similarity_score < a.similarity_score ∨
          (a.similarity_score = b.similarity_score ∧ a.index ≤ b.index)) a l := by
  intro l
  induction l with
  | nil => intro _; rfl
  | cons b t ih =>
    intro hidx
    have hb : a.index < b.index := hidx b (List.mem_cons_self _ _)
    have hiff : (b.similarity_score ≤ a.similarity_score) ↔
        (b.similarity_score < a.similarity_score ∨
          (a.similarity_score = b.similarity_score ∧ a.index ≤ b.index)) := by
      constructor
      · intro h
        rcases lt_or_eq_of_le h with h1 | h1
        · exact Or.inl h1
        · exact Or.inr ⟨h1.symm, le_of_lt hb⟩
      · intro h
        rcases h with h1 | h1
        · exact le_of_lt h1
        · exact le_of_eq h1.1.symm
    simp only [List.orderedInsert]
    by_cases h : b.similarity_score ≤ a.similarity_score
    · rw [if_pos h, if_pos (hiff.mp h)]
    · rw [if_neg h, if_neg (fun hc => h (hiff.mpr hc))]
      rw [ih (fun x hx => hidx x (List.mem_cons_of_mem _ hx))]

theorem insertionSort_score_lex {V : Type} :
    ∀ (l : List (MatchRec V)), l.Pairwise (fun a b => a.index < b.index) →
      List.insertionSort (fun a b => b.similarity_score ≤ a.similarity_score) l =
        List.insertionSort (fun a b => b.similarity_score < a.similarity_score ∨
          (a.similarity_score = b.similarity_score ∧ a.index ≤ b.index)) l := by
  intro l
  induction l with
  | nil => intro _; rfl
  | cons a t ih =>
    intro hp
    have hpt := List.Pairwise.of_cons hp
    have ha : ∀ x ∈ t, a.index < x.index := fun x hx => (List.pairwise_cons.mp hp).1 x hx
    simp only [List.insertionSort]
    rw [ih hpt]
    apply orderedInsert_score_lex
    intro x hx
    exact ha x ((List.mem_insertionSort _).mp hx)

/-- C2: for every query text, candidate collection, threshold, and topN,
`find_best_match` returns exactly the candidates whose similarity with the
query is not strictly below the threshold, sorted by score descending with
ties broken by original collection order (stable), truncated to at most topN
elements — i.e. it coincides with the spec-side `searchSpec`. -/
theorem claim_C2 {V : Type} (d : Option (List Char))
    (target : List (TargetRow V)) (top_n : Nat) (thr : ℚ) :
    find_best_match d target top_n thr = searchSpec d target top_n thr := by
  unfold find_best_match searchSpec sortMatches
  rw [insertionSort_score_lex _ (buildMatches_index_lt d thr target 0)]
  rw [buildMatches_eq_filter d thr target 0]
  rfl

/- ### Unfolding lemmas for `mapRow` -/

theorem mapRow_cons {V : Type} (pl : List (TargetRow V)) (thr : ℚ) (row : SourceRow V)
    (best : MatchRec V) (rest : List (MatchRec V))
    (h : find_best_match row.sbs_description pl 5 thr = best :: rest) :
    mapRow pl thr row =
      { sbs_code := row.sbs_code
        sbs_description := row.sbs_description
        matched_pricelist_code := some best.code
        matched_pricelist_description := some best.description
        similarity_score := best.similarity_score
        confidence := classifyConfidence best.similarity_score
        price := some best.price
        alternative_matches := rest.length
        second_best_score := rest.head?.map (fun m => m.similarity_score)
        original_fields := row.extras.map (fun p => (("original_".toList) ++ p.1, p.2)) } := by
  unfold mapRow
  rw [h]

theorem mapRow_nil {V : Type} (pl : List (TargetRow V)) (thr : ℚ) (row : SourceRow V)
    (h : find_best_match row.sbs_description pl 5 thr = []) :
    mapRow pl thr row =
      { sbs_code := row.sbs_code
        sbs_description := row.sbs_description
        matched_pricelist_code := none
        matched_pricelist_description := none
        similarity_score := 0
        confidence := MatchConfidence.NO_MATCH
        price := none
        alternative_matches := 0
        second_best_score := none
        original_fields := [] } := by
  unfold mapRow
  rw [h]

/-- From a successful `map_to_price_list` run, recover the per-row shape. -/
theorem map_to_price_list_row {V : Type} (pl : List (TargetRow V)) (thr : ℚ)
    (rows : List (SourceRow V)) (L : List (MappingResult V))
    (hok : map_to_price_list (some pl) thr rows = Except.ok L)
    (i : Nat) (r : SourceRow V) (res : MappingResult V)
    (hr : rows[i]? = some r) (hres : L[i]? = some res) :
    res = mapRow pl thr r := by
  have hL : rows.map (mapRow pl thr) = L := by
    simpa [map_to_price_list] using hok
  subst hL
  rw [List.getElem?_map, hr] at hres
  simpa using hres.symm

/- ### Concrete evaluations for the C1 and C3 witnesses -/

theorem ws_xyz :
    weighted_similarity (some "xyz".toList) (some "xyz".toList) 0.4 0.6 = 1 :=
  weighted_similarity_self (by norm_num) (by decide)

theorem wPl_build_eval :
    buildMatches (some "xyz".toList) 0.6 0 wPl = [mkMatch 0 1 wRow0, mkMatch 1 1 wRow1] := by
  have h06 : (0.6 : ℚ) ≤ 1 := by norm_num
  show buildMatches (some "xyz".toList) 0.6 0 [wRow0, wRow1] = _
  rw [buildMatches]
  simp only [wRow0]
  rw [ws_xyz, if_pos h06]
  rw [buildMatches]
  simp only [wRow1]
  rw [ws_xyz, if_pos h06]
  rfl

theorem wPl_search_eval :
    find_best_match (some "xyz".toList) wPl 5 0.6 = [mkMatch 0 1 wRow0, mkMatch 1 1 wRow1] := by
  unfold find_best_match sortMatches
  rw [wPl_build_eval]
  simp only [List.insertionSort, List.orderedInsert]
  rw [if_pos (show (mkMatch 1 1 wRow1).similarity_score ≤ (mkMatch 0 1 wRow0).similarity_score
    from le_refl 1)]
  rfl

/- ### Claim theorems -/

/-- C1: for every record processed by `map_to_price_list` with a loaded price
list, when at least one candidate survives the search the result carries the
best candidate's score, its confidence tier comes from that score by the
first matching threshold in descending order (≥0.95 EXACT, ≥0.90 HIGH, ≥0.70
MEDIUM, ≥0.50 LOW, else VERY_LOW), and the runner-up score is present exactly
when at least 2 candidates survived the threshold; when no candidate
survives, the result is NO_MATCH with score 0.0, null matched fields, no
runner-up score and zero alternatives. -/
theorem claim_C1 {V : Type} (pl : List (TargetRow V)) (thr : ℚ)
    (rows : List (SourceRow V)) (L : List (MappingResult V))
    (hok : map_to_price_list (some pl) thr rows = Except.ok L)
    (i : Nat) (r : SourceRow V) (res : MappingResult V)
    (hr : rows[i]? = some r) (hres : L[i]? = some res) :
    (∀ best rest, find_best_match r.sbs_description pl 5 thr = best :: rest →
      res.similarity_score = best.similarity_score ∧
      (0.95 ≤ best.similarity_score → res.confidence = MatchConfidence.EXACT) ∧
      (0.9 ≤ best.similarity_score ∧ best.similarity_score < 0.95 →
        res.confidence = MatchConfidence.HIGH) ∧
      (0.7 ≤ best.similarity_score ∧ best.similarity_score < 0.9 →
        res.confidence = MatchConfidence.MEDIUM) ∧
      (0.5 ≤ best.similarity_score ∧ best.similarity_score < 0.7 →
        res.confidence = MatchConfidence.LOW) ∧
      (best.similarity_score < 0.5 → res.confidence = MatchConfidence.VERY_LOW) ∧
      (res.second_best_score.isSome = true ↔
        2 ≤ (buildMatches r.sbs_description thr 0 pl).length)) ∧
    (find_best_match r.sbs_description pl 5 thr = [] →
      res.confidence = MatchConfidence.NO_MATCH ∧ res.similarity_score = 0 ∧
      res.matched_pricelist_code = none ∧ res.matched_pricelist_description = none ∧
      res.second_best_score = none ∧ res.alternative_matches = 0) := by
  have hmap := map_to_price_list_row pl thr rows L hok i r res hr hres
  subst hmap
  constructor
  · intro best rest heq
    rw [mapRow_cons pl thr r best rest heq]
    refine ⟨rfl, ?_, ?_, ?_, ?_, ?_, ?_⟩
    · intro h5
      show classifyConfidence best.similarity_score = _
      unfold classifyConfidence
      rw [if_pos h5]
    · intro h5
      show classifyConfidence best.similarity_score = _
      unfold classifyConfidence
      rw [if_neg (by linarith [h5.2]), if_pos h5.1]
    · intro h5
      show classifyConfidence best.similarity_score = _
      unfold classifyConfidence
      rw [if_neg (by linarith [h5.2]), if_neg (by linarith [h5.2]), if_pos h5.1]
    · intro h5
      show classifyConfidence best.similarity_score = _
      unfold classifyConfidence
      rw [if_neg (by linarith [h5.2]), if_neg (by linarith [h5.2]),
        if_neg (by linarith [h5.2]), if_pos h5.1]
    · intro h5
      show classifyConfidence best.similarity_score = _
      unfold classifyConfidence
      rw [if_neg (by linarith), if_neg (by linarith), if_neg (by linarith),
        if_neg (by linarith)]
    · have hlen : (best :: rest).length =
          min 5 (buildMatches r.sbs_description thr 0 pl).length := by
        rw [← heq]
        unfold find_best_match sortMatches
        rw [List.length_take, List.length_insertionSort]
      cases rest with
      | nil =>
        simp only [List.length_cons, List.length_nil] at hlen
        constructor
        · intro hh; simp at hh
        · intro hh; omega
      | cons x xs =>
        simp only [List.length_cons] at hlen
        constructor
        · intro _; omega
        · intro _; rfl
  · intro heq
    rw [mapRow_nil pl thr r heq]
    exact ⟨rfl, rfl, rfl, rfl, rfl, rfl⟩

/-- C1 witness: a source row `"xyz"` against a two-row price list whose rows
both match with score 1: the tier is EXACT and the runner-up score is
present. -/
theorem claim_C1_witness :
    (mapRow wPl (0.6 : ℚ) wSrc).confidence = MatchConfidence.EXACT ∧
    (mapRow wPl (0.6 : ℚ) wSrc).second_best_score.isSome = true := by
  have hok : map_to_price_list (some wPl) (0.6 : ℚ) [wSrc] =
      Except.ok [mapRow wPl 0.6 wSrc] := rfl
  have h := claim_C1 wPl 0.6 [wSrc] [mapRow wPl 0.6 wSrc] hok 0 wSrc
    (mapRow wPl 0.6 wSrc) rfl rfl
  have h1 := h.1 (mkMatch 0 1 wRow0) [mkMatch 1 1 wRow1] wPl_search_eval
  constructor
  · exact h1.2.1 (by norm_num [mkMatch])
  · apply (h1.2.2.2.2.2.2).mpr
    show 2 ≤ (buildMatches (some "xyz".toList) 0.6 0 wPl).length
    rw [wPl_build_eval]
    simp

/-- C3 counterexample: the claim asserts extra source fields are preserved
whether or not a match is found, but in the NO_MATCH branch the code does not
copy them: a source row with one extra column mapped against an empty (but
loaded) price list yields a result with no `original_` fields. -/
theorem claim_C3_counterexample :
    map_to_price_list (some ([] : List (TargetRow Unit))) 0.6 [cSrc] =
      Except.ok [mapRow [] 0.6 cSrc] ∧
    cSrc.extras ≠ [] ∧
    (mapRow ([] : List (TargetRow Unit)) 0.6 cSrc).original_fields = [] :=
  ⟨rfl, by decide, rfl⟩

/-- C3 (amended): when a match is found, every extra field of the source
record is preserved in the output record under the `original_` prefix; when
no candidate survives, the NO_MATCH record carries no extra fields. -/
theorem claim_C3 {V : Type} (pl : List (TargetRow V)) (thr : ℚ)
    (rows : List (SourceRow V)) (L : List (MappingResult V))
    (hok : map_to_price_list (some pl) thr rows = Except.ok L)
    (i : Nat) (r : SourceRow V) (res : MappingResult V)
    (hr : rows[i]? = some r) (hres : L[i]? = some res) :
    (∀ best rest, find_best_match r.sbs_description pl 5 thr = best :: rest →
      res.original_fields =
        r.extras.map (fun p => (("original_".toList) ++ p.1, p.2))) ∧
    (find_best_match r.sbs_description pl 5 thr = [] → res.original_fields = []) := by
  have hmap := map_to_price_list_row pl thr rows L hok i r res hr hres
  subst hmap
  constructor
  · intro best rest heq
    rw [mapRow_cons pl thr r best rest heq]
  · intro heq
    rw [mapRow_nil pl thr r heq]

/-- C3 witness: the matched case preserves the extra column `qty` as
`original_qty`. -/
theorem claim_C3_witness :
    (mapRow wPl (0.6 : ℚ) wSrc).original_fields = [("original_qty".toList, ())] := by
  have hok : map_to_price_list (some wPl) (0.6 : ℚ) [wSrc] =
      Except.ok [mapRow wPl 0.6 wSrc] := rfl
  have h := (claim_C3 wPl 0.6 [wSrc] [mapRow wPl 0.6 wSrc] hok 0 wSrc
    (mapRow wPl 0.6 wSrc) rfl rfl).1 (mkMatch 0 1 wRow0) [mkMatch 1 1 wRow1]
    wPl_search_eval
  rw [h]
  rfl

/-- C4 counterexample: the claim asserts `codeSimilarity("", x) == 0.0` for
every `x`, but on the code the empty string is a substring of `"X"`, so the
similarity is 0.9, not 0. -/
theorem claim_C4_counterexample :
    code_similarity (some "".toList) (some "X".toList) = 0.9 ∧ (0.9 : ℚ) ≠ 0 := by
  constructor
  · simp only [code_similarity]
    rw [if_neg (by decide), if_pos (by decide)]
  · norm_num

/-- C4 (amended): `code_similarity` returns 0.0 when either input is missing
(null), 1.0 on equality after trimming, 0.9 when one trimmed code is a
literal substring of the other (hence 0.9 — not 0.0 — when exactly one input
is the empty string), otherwise the count of positions up to the shorter
length where the characters agree divided by the longer length; in particular
`code_similarity "A10" "A10" = 1` and `code_similarity "A10" "A10.2" = 0.9`. -/
theorem claim_C4 (x : Option (List Char)) (a b : List Char) :
    code_similarity none x = 0 ∧
    code_similarity x none = 0 ∧
    (strip a = strip b → code_similarity (some a) (some b) = 1) ∧
    (strip a ≠ strip b → (strip a <:+: strip b ∨ strip b <:+: strip a) →
      code_similarity (some a) (some b) = 0.9) ∧
    (strip a ≠ strip b → ¬(strip a <:+: strip b ∨ strip b <:+: strip a) →
      code_similarity (some a) (some b) =
        ((((strip a).zip (strip b)).countP (fun p => p.1 == p.2) : ℕ) : ℚ) /
          ((max (strip a).length (strip b).length : ℕ) : ℚ)) ∧
    code_similarity (some "A10".toList) (some "A10".toList) = 1 ∧
    code_similarity (some "A10".toList) (some "A10.2".toList) = 0.9 := by
  refine ⟨?_, ?_, ?_, ?_, ?_, ?_, ?_⟩
  · cases x <;> rfl
  · cases x <;> rfl
  · intro h
    simp only [code_similarity]
    rw [if_pos h]
  · intro h1 h2
    simp only [code_similarity]
    rw [if_neg h1, if_pos h2]
  · intro h1 h2
    simp only [code_similarity]
    rw [if_neg h1, if_neg h2]
  · simp only [code_similarity]
    rw [if_pos (by decide)]
  · simp only [code_similarity]
    rw [if_neg (by decide), if_pos (by decide)]

/-- C4 witness: a concrete substring pair hitting the 0.9 branch of the
amended claim. -/
theorem claim_C4_witness :
    code_similarity (some "B7".toList) (some " XB7X ".toList) = 0.9 :=
  (claim_C4 none "B7".toList " XB7X ".toList).2.2.2.1 (by decide) (Or.inl (by decide))

/-- C5 counterexample: `"ab"` is a non-empty text and the default weights sum
to 1, yet `weighted_similarity "ab" "ab" = 0.6 ≠ 1`, because no keyword of
length `> 2` is extracted and the Jaccard component is 0. -/
theorem claim_C5_counterexample :
    "ab".toList ≠ [] ∧ (0.4 : ℚ) + 0.6 = 1 ∧
    weighted_similarity (some "ab".toList) (some "ab".toList) 0.4 0.6 = 0.6 ∧
    (0.6 : ℚ) ≠ 1 := by
  refine ⟨by decide, by norm_num, ?_, by norm_num⟩
  have hk : extract_keywords (some "ab".toList) = [] := by decide
  have hn : normalize (some "ab".toList) = "ab".toList := by decide
  have hd : levenshtein_distance "ab".toList "ab".toList = 0 :=
    levenshtein_distance_self _
  have hq : jaccard_similarity (some "ab".toList) (some "ab".toList) = 0 := by
    simp only [jaccard_similarity, hk]
    rw [if_pos (Or.inl (by simp))]
  have hl : normalized_levenshtein (some "ab".toList) (some "ab".toList) = 1 := by
    simp only [normalized_levenshtein, hn, hd]
    rw [if_neg (by decide), if_pos (by decide)]
    norm_num
  unfold weighted_similarity
  rw [hq, hl]
  norm_num

/-- C5 (amended): for every text with at least one extracted keyword (rather
than merely non-empty) and weights summing to 1, the weighted similarity of
the text with itself is 1 (reflexivity). -/
theorem claim_C5 (jw lw : ℚ) (t : Option (List Char)) (hw : jw + lw = 1)
    (hk : extract_keywords t ≠ []) : weighted_similarity t t jw lw = 1 :=
  weighted_similarity_self hw hk

/-- C5 witness: reflexivity at the concrete text `"chest"` with the default
weights. -/
theorem claim_C5_witness :
    extract_keywords (some "chest".toList) ≠ [] ∧
    weighted_similarity (some "chest".toList) (some "chest".toList) 0.4 0.6 = 1 :=
  ⟨by decide, claim_C5 0.4 0.6 (some "chest".toList) (by norm_num) (by decide)⟩

/-- C6: with the default weights 0.4 and 0.6, the weighted similarity of any
two texts lies in the closed interval [0, 1]. -/
theorem claim_C6 (t1 t2 : Option (List Char)) :
    0 ≤ weighted_similarity t1 t2 0.4 0.6 ∧ weighted_similarity t1 t2 0.4 0.6 ≤ 1 := by
  have h1 := jaccard_similarity_nonneg t1 t2
  have h2 := jaccard_similarity_le_one t1 t2
  have h3 := normalized_levenshtein_nonneg t1 t2
  have h4 := normalized_levenshtein_le_one t1 t2
  unfold weighted_similarity
  constructor <;> linarith

/-- C7: invoking `map_to_price_list` on an engine whose price list has not
been loaded fails immediately with the configuration error, for every row
collection and threshold, producing no (partial) output. -/
theorem claim_C7 {V : Type} (thr : ℚ) (rows : List (SourceRow V)) :
    map_to_price_list (none : Option (List (TargetRow V))) thr rows =
      Except.error "Price list not loaded. Call load_price_list() first." := rfl

/-- C8: for every input text (including a missing one), the normalized text
contains only lowercase ASCII letters, digits and single spaces, with no
leading or trailing space; totality holds by construction. -/
theorem claim_C8 (t : Option (List Char)) :
    (∀ c ∈ normalize t, isLowerAlnum c = true ∨ c = ' ') ∧
    noDoubleSpace (normalize t) = true ∧
    (normalize t).head? ≠ some ' ' ∧
    (normalize t).getLast? ≠ some ' ' :=
  normalize_shape t

/-- C8 witness: the shape property evaluated at the concrete text
`"A  b-7!"`. -/
theorem claim_C8_witness :
    noDoubleSpace (normalize (some "A  b-7!".toList)) = true ∧
    (isLowerAlnum 'a' = true ∨ 'a' = ' ') :=
  ⟨(claim_C8 (some "A  b-7!".toList)).2.1,
   (claim_C8 (some "A  b-7!".toList)).1 'a' (by decide)⟩

/-- C9: a flagged row is ambiguous iff a runner-up score exists and the gap
to the best score is strictly below the threshold, and it requires review iff
it is ambiguous or its confidence tier is LOW or VERY_LOW. -/
theorem claim_C9 {V : Type} (thr : ℚ) (l : List (MappingResult V))
    (f : FlaggedResult V) (hf : f ∈ flag_ambiguous_matches thr l) :
    (f.is_ambiguous = true ↔
      ∃ s, f.result.second_best_score = some s ∧ f.result.similarity_score - s < thr) ∧
    (f.requires_review = true ↔
      (f.is_ambiguous = true ∨ f.result.confidence = MatchConfidence.LOW ∨
        f.result.confidence = MatchConfidence.VERY_LOW)) := by
  obtain ⟨r, _, rfl⟩ := List.mem_map.mp hf
  constructor
  · simp only [flagRow]
    cases h2 : r.second_best_score with
    | none => simp [h2]
    | some s => simp [h2]
  · simp only [flagRow]
    cases h2 : r.second_best_score with
    | none => simp [h2, or_assoc]
    | some s => simp [h2, or_assoc]

/-- C9 witness: the row with best score 0.80 and runner-up 0.78 is flagged
ambiguous under the default gap threshold 0.05. -/
theorem claim_C9_witness :
    flag_ambiguous_matches (0.05 : ℚ) [r9] = [flagRow 0.05 r9] ∧
    (flagRow (0.05 : ℚ) r9).is_ambiguous = true := by
  refine ⟨rfl, ?_⟩
  have hf : flagRow (0.05 : ℚ) r9 ∈ flag_ambiguous_matches (0.05 : ℚ) [r9] := by
    simp [flag_ambiguous_matches]
  exact (claim_C9 0.05 [r9] (flagRow 0.05 r9) hf).1.mpr
    ⟨0.78, rfl, by norm_num [flagRow, r9]⟩

/-- C10: the weighted similarity is symmetric in its two texts, for any
weights (in particular the defaults). -/
theorem claim_C10 (t1 t2 : Option (List Char)) (jw lw : ℚ) :
    weighted_similarity t1 t2 jw lw = weighted_similarity t2 t1 jw lw := by
  unfold weighted_similarity
  rw [jaccard_similarity_symm, normalized_levenshtein_symm]

end SBS
